import Mathlib

/-!
Verification of the retention/admission policy of backup.py
(cheemcheem/backup-manager).

The program is a single Python script operating on a backup root directory.
We embed its state shallowly:

* a backup entry (one immediate child of the backup root) is a record of its
  name, its disk usage in kilobytes as reported by the du utility, and its
  metadata-change timestamp as reported by os.path.getctime;
* a directory listing is a list of entries in os.listdir order;
* disk usage of the backup root is modelled additively as the sum of the
  entries' sizes (the SizeProbe abstraction of the spec, matching the
  arithmetic the admission/eviction algorithm is specified with);
* the module-level script is a function from an abstract world (argument
  count, path-existence facts, sizes, the root listing, existence of the
  generated output path) to an exit status, the list of printed messages,
  and the final world.

Every definition is translated from the corresponding place in backup.py;
the python line numbers are given in the doc comments.
-/

/-- One immediate child of the backup root: its path name, its subtree size
in kilobytes (du -sk), and its metadata-change timestamp (os.path.getctime). -/
structure Entry where
  name : String
  size : Nat
  ctime : Nat
deriving DecidableEq

/-- A directory listing, in os.listdir order. -/
abbrev Root := List Entry

/-- Models get_size_kilobytes (backup.py lines 17-32) applied to the backup
root: total du size of the directory, additively the sum of the entries'
sizes. du of a single entry is modelled by the size field of that entry. -/
def get_size_kilobytes (l : Root) : Nat :=
  (l.map Entry.size).sum

/-- Models oldest_in_directory (backup.py lines 35-46): Python stable-sorts
the listing by ctime and takes element 0, i.e. the first entry attaining the
minimal timestamp; None when the directory is empty. -/
def oldest_in_directory : Root → Option Entry
  | [] => none
  | e :: rest =>
    some (match oldest_in_directory rest with
      | none => e
      | some o => if e.ctime ≤ o.ctime then e else o)

/-- Models newest_in_directory (backup.py lines 49-60): Python stable-sorts
the listing by ctime and takes element -1, i.e. the last entry attaining the
maximal timestamp; None when the directory is empty. -/
def newest_in_directory : Root → Option Entry
  | [] => none
  | e :: rest =>
    some (match newest_in_directory rest with
      | none => e
      | some w => if w.ctime < e.ctime then e else w)

theorem oldest_in_directory_eq_none {l : Root} :
    oldest_in_directory l = none ↔ l = [] := by
  cases l <;> simp [oldest_in_directory]

theorem newest_in_directory_eq_none {l : Root} :
    newest_in_directory l = none ↔ l = [] := by
  cases l <;> simp [newest_in_directory]

theorem oldest_in_directory_mem {l : Root} {o : Entry}
    (h : oldest_in_directory l = some o) : o ∈ l := by
  induction l generalizing o with
  | nil => simp [oldest_in_directory] at h
  | cons e rest ih =>
    cases hr : oldest_in_directory rest with
    | none =>
      simp [oldest_in_directory, hr] at h
      simp [h]
    | some o' =>
      simp [oldest_in_directory, hr] at h
      by_cases hc : e.ctime ≤ o'.ctime
      · simp [hc] at h
        simp [h]
      · simp [hc] at h
        exact List.mem_cons_of_mem _ (h ▸ ih hr)

theorem oldest_in_directory_min {l : Root} {o : Entry}
    (h : oldest_in_directory l = some o) :
    ∀ e ∈ l, o.ctime ≤ e.ctime := by
  induction l generalizing o with
  | nil => simp [oldest_in_directory] at h
  | cons e rest ih =>
    cases hr : oldest_in_directory rest with
    | none =>
      have : rest = [] := oldest_in_directory_eq_none.mp hr
      subst this
      simp [oldest_in_directory, hr] at h
      simp [h]
    | some o' =>
      simp [oldest_in_directory, hr] at h
      by_cases hc : e.ctime ≤ o'.ctime
      · simp [hc] at h
        subst h
        intro x hx
        rcases List.mem_cons.mp hx with hx | hx
        · simp [hx]
        · exact le_trans hc (ih hr x hx)
      · simp [hc] at h
        subst h
        intro x hx
        rcases List.mem_cons.mp hx with hx | hx
        · exact hx ▸ le_of_lt (Nat.lt_of_not_le hc)
        · exact ih hr x hx

/-- The entry returned by oldest_in_directory is the first entry attaining
the minimal timestamp: every entry listed before it is strictly younger. -/
theorem oldest_in_directory_first {l : Root} {o : Entry}
    (h : oldest_in_directory l = some o) :
    ∃ p q, l = p ++ o :: q ∧ ∀ e ∈ p, o.ctime < e.ctime := by
  induction l generalizing o with
  | nil => simp [oldest_in_directory] at h
  | cons e rest ih =>
    cases hr : oldest_in_directory rest with
    | none =>
      have : rest = [] := oldest_in_directory_eq_none.mp hr
      subst this
      simp [oldest_in_directory, hr] at h
      exact ⟨[], [], by simp [h], by simp⟩
    | some o' =>
      simp [oldest_in_directory, hr] at h
      by_cases hc : e.ctime ≤ o'.ctime
      · simp [hc] at h
        exact ⟨[], rest, by simp [h], by simp⟩
      · simp [hc] at h
        subst h
        obtain ⟨p, q, hpq, hp⟩ := ih hr
        refine ⟨e :: p, q, by simp [hpq], ?_⟩
        intro x hx
        rcases List.mem_cons.mp hx with hx | hx
        · exact hx ▸ Nat.lt_of_not_le hc
        · exact hp x hx

theorem newest_in_directory_mem {l : Root} {w : Entry}
    (h : newest_in_directory l = some w) : w ∈ l := by
  induction l generalizing w with
  | nil => simp [newest_in_directory] at h
  | cons e rest ih =>
    cases hr : newest_in_directory rest with
    | none =>
      simp [newest_in_directory, hr] at h
      simp [h]
    | some w' =>
      simp [newest_in_directory, hr] at h
      by_cases hc : w'.ctime < e.ctime
      · simp [hc] at h
        simp [h]
      · simp [hc] at h
        exact List.mem_cons_of_mem _ (h ▸ ih hr)

theorem newest_in_directory_max {l : Root} {w : Entry}
    (h : newest_in_directory l = some w) :
    ∀ e ∈ l, e.ctime ≤ w.ctime := by
  induction l generalizing w with
  | nil => simp [newest_in_directory] at h
  | cons e rest ih =>
    cases hr : newest_in_directory rest with
    | none =>
      have : rest = [] := newest_in_directory_eq_none.mp hr
      subst this
      simp [newest_in_directory, hr] at h
      simp [h]
    | some w' =>
      simp [newest_in_directory, hr] at h
      by_cases hc : w'.ctime < e.ctime
      · simp [hc] at h
        subst h
        intro x hx
        rcases List.mem_cons.mp hx with hx | hx
        · simp [hx]
        · exact le_trans (ih hr x hx) (le_of_lt hc)
      · simp [hc] at h
        subst h
        intro x hx
        rcases List.mem_cons.mp hx with hx | hx
        · exact hx ▸ Nat.le_of_not_lt hc
        · exact ih hr x hx

/-- The entry returned by newest_in_directory is the last entry attaining
the maximal timestamp: every entry listed after it is strictly older. -/
theorem newest_in_directory_last {l : Root} {w : Entry}
    (h : newest_in_directory l = some w) :
    ∃ p q, l = p ++ w :: q ∧ ∀ e ∈ q, e.ctime < w.ctime := by
  induction l generalizing w with
  | nil => simp [newest_in_directory] at h
  | cons e rest ih =>
    cases hr : newest_in_directory rest with
    | none =>
      have : rest = [] := newest_in_directory_eq_none.mp hr
      subst this
      simp [newest_in_directory, hr] at h
      exact ⟨[], [], by simp [h], by simp⟩
    | some w' =>
      simp [newest_in_directory, hr] at h
      by_cases hc : w'.ctime < e.ctime
      · simp [hc] at h
        subst h
        refine ⟨[], rest, by simp, ?_⟩
        intro x hx
        exact lt_of_le_of_lt (newest_in_directory_max hr x hx) hc
      · simp [hc] at h
        subst h
        obtain ⟨p, q, hpq, hq⟩ := ih hr
        exact ⟨e :: p, q, by simp [hpq], hq⟩

/-- Models check_backup_possible (backup.py lines 63-80): the new backup is
admitted iff its size is at most the budget minus the size of the newest
existing entry (0 for an empty root). The subtraction is Python integer
subtraction, hence taken in Int. The source function only performs reads
(du and a directory listing); its embedding is a pure function of the
values read. -/
def check_backup_possible (input_folder_size : Nat) (backup_root : Root)
    (max_backup_size_kilobytes : Nat) : Bool :=
  let newest_backup_folder := newest_in_directory backup_root
  let newest_backup_folder_size_kilobytes : Nat :=
    match newest_backup_folder with
    | none => 0
    | some w => w.size
  decide ((input_folder_size : Int) ≤
    (max_backup_size_kilobytes : Int) - (newest_backup_folder_size_kilobytes : Int))

/-- The while loop of purge_old_backups_as_required (backup.py lines 94-102),
with an explicit fuel argument bounding the number of iterations; each
iteration deletes one entry, so fuel equal to the length of the listing is
always sufficient (proved in purgeLoopFuel_of_le below).  The loop condition
re-reads the root's size and its oldest entry at every iteration, exactly as
the source recomputes them after each deletion; the input size is the cached
value passed in. Returns the remaining listing and the deleted entries in
deletion order. -/
def purgeLoopFuel (input_folder_size_kilobytes max_backup_size_kilobytes : Nat) :
    Nat → Root → Root × List Entry
  | 0, root => (root, [])
  | fuel + 1, root =>
    if max_backup_size_kilobytes <
        get_size_kilobytes root + input_folder_size_kilobytes then
      match oldest_in_directory root with
      | none => (root, [])
      | some o =>
        let r := purgeLoopFuel input_folder_size_kilobytes
          max_backup_size_kilobytes fuel (root.erase o)
        (r.1, o :: r.2)
    else (root, [])

/-- The while loop of backup.py lines 94-102 run to completion: fuel is the
number of entries, which suffices since every iteration removes one entry. -/
def purgeLoop (input_folder_size_kilobytes max_backup_size_kilobytes : Nat)
    (root : Root) : Root × List Entry :=
  purgeLoopFuel input_folder_size_kilobytes max_backup_size_kilobytes
    root.length root

/-- Models purge_old_backups_as_required (backup.py lines 83-102).  The
input directory's size may vary over time (external interference); the
argument gives its value at each point the program could measure it.  The
source measures it exactly once, on line 90, before the loop — hence only
the value at time 0 is ever read. -/
def purge_old_backups_as_required (input_size_at : Nat → Nat)
    (max_backup_size_kilobytes : Nat) (root : Root) : Root × List Entry :=
  purgeLoop (input_size_at 0) max_backup_size_kilobytes root

theorem get_size_kilobytes_erase {root : Root} {o : Entry} (h : o ∈ root) :
    get_size_kilobytes root = o.size + get_size_kilobytes (root.erase o) := by
  have hperm : List.Perm root (o :: root.erase o) := List.perm_cons_erase h
  have := (hperm.map Entry.size).sum_eq
  simpa [get_size_kilobytes] using this

theorem length_erase_of_mem' {root : Root} {o : Entry} (h : o ∈ root) :
    (root.erase o).length + 1 = root.length := by
  have := List.length_erase_of_mem h
  have hpos : 0 < root.length := List.length_pos.mpr (List.ne_nil_of_mem h)
  omega

/-- The loop result does not depend on the fuel once the fuel covers the
number of entries: this is the termination of the source's while loop (at
most one iteration per entry, since each iteration deletes one entry). -/
theorem purgeLoopFuel_nil {i B : Nat} (fuel : Nat) :
    purgeLoopFuel i B fuel [] = ([], []) := by
  cases fuel <;> simp [purgeLoopFuel, oldest_in_directory, get_size_kilobytes]

theorem purgeLoopFuel_congr {i B : Nat} :
    ∀ (fuel₁ fuel₂ : Nat) (root : Root), root.length ≤ fuel₁ → root.length ≤ fuel₂ →
      purgeLoopFuel i B fuel₁ root = purgeLoopFuel i B fuel₂ root := by
  intro fuel₁
  induction fuel₁ with
  | zero =>
    intro fuel₂ root hlen _
    have : root = [] := List.eq_nil_of_length_eq_zero (Nat.le_zero.mp hlen)
    subst this
    rw [purgeLoopFuel_nil, purgeLoopFuel_nil]
  | succ fuel ih =>
    intro fuel₂ root hlen hlen₂
    cases root with
    | nil => rw [purgeLoopFuel_nil, purgeLoopFuel_nil]
    | cons e rest =>
      cases fuel₂ with
      | zero => simp at hlen₂
      | succ f₂ =>
        by_cases hcond : B < get_size_kilobytes (e :: rest) + i
        · cases ho : oldest_in_directory (e :: rest) with
          | none => simp [oldest_in_directory] at ho
          | some o =>
            have hmem := oldest_in_directory_mem ho
            have hel : ((e :: rest).erase o).length + 1 = (e :: rest).length :=
              length_erase_of_mem' hmem
            have h1 : ((e :: rest).erase o).length ≤ fuel := by
              simp at hlen hel; omega
            have h2 : ((e :: rest).erase o).length ≤ f₂ := by
              simp at hlen₂ hel; omega
            simp only [purgeLoopFuel, hcond, if_true, ho]
            rw [ih f₂ _ h1 h2]
        · simp only [purgeLoopFuel, hcond, if_false]

/-- Fuel equal to the number of entries is enough: extra fuel is irrelevant. -/
theorem purgeLoopFuel_of_le {i B : Nat} {fuel : Nat} {root : Root}
    (h : root.length ≤ fuel) :
    purgeLoopFuel i B fuel root = purgeLoop i B root :=
  purgeLoopFuel_congr fuel root.length root h (Nat.le_refl _)

/-- The loop exit condition of backup.py lines 94-95: when the loop stops,
either the root plus the new backup fit the budget, or the root is empty. -/
theorem purgeLoopFuel_exit {i B : Nat} :
    ∀ (fuel : Nat) (root : Root), root.length ≤ fuel →
      get_size_kilobytes (purgeLoopFuel i B fuel root).1 + i ≤ B ∨
        (purgeLoopFuel i B fuel root).1 = [] := by
  intro fuel
  induction fuel with
  | zero =>
    intro root hlen
    have : root = [] := List.eq_nil_of_length_eq_zero (Nat.le_zero.mp hlen)
    subst this
    right
    rw [purgeLoopFuel_nil]
  | succ fuel ih =>
    intro root hlen
    by_cases hcond : B < get_size_kilobytes root + i
    · cases ho : oldest_in_directory root with
      | none =>
        have : root = [] := oldest_in_directory_eq_none.mp ho
        subst this
        right
        rw [purgeLoopFuel_nil]
      | some o =>
        have hmem := oldest_in_directory_mem ho
        have hel := length_erase_of_mem' hmem
        simp only [purgeLoopFuel, hcond, if_true, ho]
        exact ih (root.erase o) (by omega)
    · left
      simp only [purgeLoopFuel, hcond, if_false]
      omega

/-- Both components of the loop result (survivors and deleted entries) are
entries of the initial listing. -/
theorem purgeLoopFuel_mem {i B : Nat} :
    ∀ (fuel : Nat) (root : Root),
      (∀ x ∈ (purgeLoopFuel i B fuel root).1, x ∈ root) ∧
        (∀ x ∈ (purgeLoopFuel i B fuel root).2, x ∈ root) := by
  intro fuel
  induction fuel with
  | zero =>
    intro root
    exact ⟨fun x hx => hx, by simp [purgeLoopFuel]⟩
  | succ fuel ih =>
    intro root
    by_cases hcond : B < get_size_kilobytes root + i
    · cases ho : oldest_in_directory root with
      | none =>
        simp only [purgeLoopFuel, hcond, if_true, ho]
        exact ⟨fun x hx => hx, by simp⟩
      | some o =>
        simp only [purgeLoopFuel, hcond, if_true, ho]
        have hmem := oldest_in_directory_mem ho
        obtain ⟨h1, h2⟩ := ih (root.erase o)
        refine ⟨fun x hx => List.mem_of_mem_erase (h1 x hx), fun x hx => ?_⟩
        rcases List.mem_cons.mp hx with hx | hx
        · exact hx ▸ hmem
        · exact List.mem_of_mem_erase (h2 x hx)
    · simp only [purgeLoopFuel, hcond, if_false]
      exact ⟨fun x hx => hx, by simp⟩

/-- Each deleted entry has a timestamp at most that of every entry deleted
after it and of every surviving entry: the loop always deletes a minimal
remaining entry. -/
theorem purgeLoopFuel_order {i B : Nat} :
    ∀ (fuel : Nat) (root : Root),
      List.Pairwise (fun a b => a.ctime ≤ b.ctime) (purgeLoopFuel i B fuel root).2 ∧
        ∀ d ∈ (purgeLoopFuel i B fuel root).2,
          ∀ r ∈ (purgeLoopFuel i B fuel root).1, d.ctime ≤ r.ctime := by
  intro fuel
  induction fuel with
  | zero =>
    intro root
    constructor
    · simp [purgeLoopFuel]
    · simp [purgeLoopFuel]
  | succ fuel ih =>
    intro root
    by_cases hcond : B < get_size_kilobytes root + i
    · cases ho : oldest_in_directory root with
      | none =>
        simp only [purgeLoopFuel, hcond, if_true, ho]
        constructor
        · simp
        · simp
      | some o =>
        simp only [purgeLoopFuel, hcond, if_true, ho]
        have hmin := oldest_in_directory_min ho
        obtain ⟨hmem1, hmem2⟩ := purgeLoopFuel_mem fuel (root.erase o)
        obtain ⟨hpw, hdf⟩ := ih (root.erase o)
        constructor
        · refine List.pairwise_cons.mpr ⟨fun x hx => ?_, hpw⟩
          exact hmin x (List.mem_of_mem_erase (hmem2 x hx))
        · intro d hd r hr
          rcases List.mem_cons.mp hd with hd | hd
          · exact hd ▸ hmin r (List.mem_of_mem_erase (hmem1 r hr))
          · exact hdf d hd r hr
    · simp only [purgeLoopFuel, hcond, if_false]
      constructor
      · simp
      · simp

/-- The designated occurrence of an entry w in a listing such that every
entry listed before w is no newer and every entry listed after w is strictly
older: this is exactly the position newest_in_directory selects. -/
def LastMax (w : Entry) (l : Root) : Prop :=
  ∃ p q, l = p ++ w :: q ∧ (∀ e ∈ p, e.ctime ≤ w.ctime) ∧
    ∀ e ∈ q, e.ctime < w.ctime

theorem lastMax_of_newest {l : Root} {w : Entry}
    (h : newest_in_directory l = some w) : LastMax w l := by
  obtain ⟨p, q, hpq, hq⟩ := newest_in_directory_last h
  have hmax := newest_in_directory_max h
  exact ⟨p, q, hpq, fun e he => hmax e (by simp [hpq, he]), hq⟩

theorem lastMax_mem {l : Root} {w : Entry} (h : LastMax w l) : w ∈ l := by
  obtain ⟨p, q, hpq, -, -⟩ := h
  simp [hpq]

theorem lastMax_max {l : Root} {w : Entry} (h : LastMax w l) :
    ∀ e ∈ l, e.ctime ≤ w.ctime := by
  obtain ⟨p, q, hpq, hp, hq⟩ := h
  intro e he
  rw [hpq] at he
  rcases List.mem_append.mp he with he | he
  · exact hp e he
  · rcases List.mem_cons.mp he with he | he
    · simp [he]
    · exact le_of_lt (hq e he)

/-- If the oldest entry of a listing is the designated last-maximal entry w
itself (and w does not occur in the prefix), the listing is the singleton
of w.  This is the heart of newest-preservation: the eviction loop can only
select w once everything else is gone. -/
theorem eq_single_of_oldest_lastMax {w : Entry} {p q : Root}
    (hp : ∀ e ∈ p, e.ctime ≤ w.ctime) (hq : ∀ e ∈ q, e.ctime < w.ctime)
    (ho : oldest_in_directory (p ++ w :: q) = some w) (hop : w ∉ p) :
    p ++ w :: q = [w] := by
  have hqnil : q = [] := by
    rcases q with - | ⟨x, xs⟩
    · rfl
    · exfalso
      have hxl : x ∈ p ++ w :: x :: xs := by simp
      have := oldest_in_directory_min ho x hxl
      have := hq x (by simp)
      omega
  subst hqnil
  have hpnil : p = [] := by
    obtain ⟨a, b, hab, ha⟩ := oldest_in_directory_first ho
    have hanil : a = [] := by
      rcases a with - | ⟨y, ys⟩
      · rfl
      · exfalso
        have hyl : y ∈ p ++ [w] := by
          rw [hab]; simp
        have hy1 : w.ctime < y.ctime := ha y (by simp)
        have hy2 : y.ctime ≤ w.ctime := by
          rcases List.mem_append.mp hyl with hy | hy
          · exact hp y hy
          · simp at hy
            simp [hy]
        omega
    subst hanil
    rcases p with - | ⟨ph, pt⟩
    · rfl
    · exfalso
      simp only [List.nil_append, List.cons_append] at hab
      injection hab with h1 h2
      subst h1
      exact hop (List.mem_cons_self _ _)
  subst hpnil
  rfl

/-- Deleting the oldest entry preserves the designated last-maximal entry w,
unless the listing is exactly the singleton of w. -/
theorem lastMax_erase_or {w o : Entry} {l : Root} (hlm : LastMax w l)
    (ho : oldest_in_directory l = some o) :
    LastMax w (l.erase o) ∨ l = [w] := by
  obtain ⟨p, q, rfl, hp, hq⟩ := hlm
  by_cases hop : o ∈ p
  · left
    rw [List.erase_append_left _ hop]
    exact ⟨p.erase o, q, rfl, fun e he => hp e (List.mem_of_mem_erase he), hq⟩
  · by_cases how : o = w
    · right
      subst how
      exact eq_single_of_oldest_lastMax hp hq ho hop
    · left
      rw [List.erase_append_right _ hop, List.erase_cons_tail]
      · exact ⟨p, q.erase o, rfl, hp,
          fun e he => hq e (List.mem_of_mem_erase he)⟩
      · simp
        exact fun h => how h.symm

/-- With distinct entries, the eviction loop selects the designated
last-maximal entry w as oldest only when w is the sole remaining entry. -/
theorem lastMax_oldest_eq_self {w : Entry} {l : Root} (hnd : l.Nodup)
    (hlm : LastMax w l) (ho : oldest_in_directory l = some w) : l = [w] := by
  obtain ⟨p, q, rfl, hp, hq⟩ := hlm
  rcases List.nodup_append.mp hnd with ⟨-, -, hdisj⟩
  exact eq_single_of_oldest_lastMax hp hq ho
    (fun hwp => hdisj hwp (List.mem_cons_self w q))

/-- If the budget reserves room for the new backup next to the entry w that
newest_in_directory designated (the admission guarantee), then the eviction
loop never deletes w: w is still in the surviving listing. -/
theorem purgeLoopFuel_preserves_lastMax {i B : Nat} {w : Entry} :
    ∀ (fuel : Nat) (root : Root), root.length ≤ fuel → LastMax w root →
      i + w.size ≤ B → LastMax w (purgeLoopFuel i B fuel root).1 := by
  intro fuel
  induction fuel with
  | zero =>
    intro root hlen hlm _
    have : root = [] := List.eq_nil_of_length_eq_zero (Nat.le_zero.mp hlen)
    subst this
    exact absurd (lastMax_mem hlm) (by simp)
  | succ fuel ih =>
    intro root hlen hlm hbudget
    by_cases hcond : B < get_size_kilobytes root + i
    · cases ho : oldest_in_directory root with
      | none =>
        simp only [purgeLoopFuel, hcond, if_true, ho]
        exact hlm
      | some o =>
        simp only [purgeLoopFuel, hcond, if_true, ho]
        rcases lastMax_erase_or hlm ho with h | h
        · have hel := length_erase_of_mem' (oldest_in_directory_mem ho)
          exact ih (root.erase o) (by omega) h hbudget
        · exfalso
          subst h
          simp [get_size_kilobytes] at hcond
          omega
    · simp only [purgeLoopFuel, hcond, if_false]
      exact hlm

/-- With distinct entries, if the loop ever deletes the designated
last-maximal entry w, then that deletion is the very last one and it empties
the root: w is never deleted while a strictly older entry remains. -/
theorem purgeLoopFuel_newest_deleted_last {i B : Nat} {w : Entry} :
    ∀ (fuel : Nat) (root : Root), root.Nodup → LastMax w root →
      w ∈ (purgeLoopFuel i B fuel root).2 →
      (purgeLoopFuel i B fuel root).2.getLast? = some w ∧
        (purgeLoopFuel i B fuel root).1 = [] := by
  intro fuel
  induction fuel with
  | zero =>
    intro root _ _ hw
    simp [purgeLoopFuel] at hw
  | succ fuel ih =>
    intro root hnd hlm hw
    by_cases hcond : B < get_size_kilobytes root + i
    · cases ho : oldest_in_directory root with
      | none =>
        simp only [purgeLoopFuel, hcond, if_true, ho] at hw
        simp at hw
      | some o =>
        simp only [purgeLoopFuel, hcond, if_true, ho] at hw ⊢
        by_cases how : o = w
        · subst how
          have hroot := lastMax_oldest_eq_self hnd hlm ho
          subst hroot
          have herase : ([o] : Root).erase o = [] := by simp
          rw [herase, purgeLoopFuel_nil]
          constructor <;> simp
        · have hw' : w ∈ (purgeLoopFuel i B fuel (root.erase o)).2 := by
            rcases List.mem_cons.mp hw with h | h
            · exact absurd h.symm how
            · exact h
          have hsub : (root.erase o).Sublist root := List.erase_sublist o root
          have hnd' : (root.erase o).Nodup := hsub.nodup hnd
          have hlm' : LastMax w (root.erase o) := by
            rcases lastMax_erase_or hlm ho with h | h
            · exact h
            · exfalso
              rw [h] at ho
              simp [oldest_in_directory] at ho
              exact how ho.symm
          obtain ⟨h1, h2⟩ := ih (root.erase o) hnd' hlm' hw'
          refine ⟨?_, h2⟩
          cases hT : (purgeLoopFuel i B fuel (root.erase o)).2 with
          | nil =>
            rw [hT] at hw'
            simp at hw'
          | cons b t =>
            rw [hT] at h1
            rw [List.getLast?_cons_cons]
            exact h1
    · simp only [purgeLoopFuel, hcond, if_false] at hw
      simp at hw

/-- Admission (check_backup_possible true) with a non-empty root reserves
room for the newest entry next to the new backup. -/
theorem check_backup_possible_newest {i B : Nat} {root : Root} {w : Entry}
    (hchk : check_backup_possible i root B = true)
    (hw : newest_in_directory root = some w) :
    i + w.size ≤ B := by
  unfold check_backup_possible at hchk
  rw [hw] at hchk
  simp only [decide_eq_true_eq] at hchk
  omega

/-- The observable state the script acts on: the command line (its length
and the validity facts backup.py lines 123-126 read off it) and the
file-system facts the script reads (sizes, the backup-root listing, whether
the generated output path already exists). -/
structure World where
  argc : Nat
  inputExists : Bool
  rootExists : Bool
  capNumeric : Bool
  cap : Nat
  inputSize : Nat
  root : Root
  outputExists : Bool
  outName : String
  now : Nat
deriving DecidableEq

/-- Process exit: status 0 (falls off the end), status 1 (usage), status 2
(naming collision), or an uncaught Python exception (traceback, no message
printed by the script itself). -/
inductive ExitStatus
  | ok
  | usageError
  | collision
  | crash
deriving DecidableEq

/-- The messages backup.py prints to standard output. -/
inductive Event
  | usageMsg
  | collisionMsg (path : String)
  | purgedMsg (path : String)
  | tooLargeMsg
  | copyConflictMarker
  | backupCreatedMsg (path : String)
deriving DecidableEq

/-- Models create_new_backup (backup.py lines 105-111): if the output path
exists the script only prints the one-character marker F; otherwise it
copies the input directory to the output path (a new entry of the input's
size, stamped with the current time, appended to the listing) and reports
the new backup's path. -/
def create_new_backup (w : World) : List Event × World :=
  if w.outputExists then
    ([Event.copyConflictMarker], w)
  else
    ([Event.backupCreatedMsg w.outName],
      { w with root := w.root ++ [⟨w.outName, w.inputSize, w.now⟩],
               outputExists := true })

/-- Models the module-level script, backup.py lines 123-158, faithfully to
its control flow:
* lines 123-126: with fewer than 3 positional arguments the very evaluation
  of sys.argv[1..3] raises IndexError (crash);
* line 127-134: the script prints the usage message and exits 1 exactly when
  len(sys.argv) is not 4 AND the three validity facts all hold (the source
  condition is has_required_args and has_valid_args, where
  has_required_args is assigned len(sys.argv) != 4);
* lines 136-141: if the generated output path exists, print the collision
  message and exit 2;
* line 145: int(sys.argv[3]) raises ValueError on a non-numeric cap;
* lines 142-146: check_backup_possible crashes when the input directory is
  missing (du produces no output, IndexError) or the backup root is missing
  (os.listdir raises);
* lines 146-155: on admission, purge then copy;
* lines 156-158: otherwise print the informational message and exit 0. -/
def runScript (w : World) : ExitStatus × List Event × World :=
  if w.argc < 4 then
    (ExitStatus.crash, [], w)
  else if (w.argc != 4) && (w.inputExists && w.rootExists && w.capNumeric) then
    (ExitStatus.usageError, [Event.usageMsg], w)
  else if w.outputExists then
    (ExitStatus.collision, [Event.collisionMsg w.outName], w)
  else if !w.capNumeric then
    (ExitStatus.crash, [], w)
  else if !w.inputExists then
    (ExitStatus.crash, [], w)
  else if !w.rootExists then
    (ExitStatus.crash, [], w)
  else if check_backup_possible w.inputSize w.root w.cap then
    let pr := purge_old_backups_as_required (fun _ => w.inputSize) w.cap w.root
    let cr := create_new_backup { w with root := pr.1 }
    (ExitStatus.ok, pr.2.map (fun e => Event.purgedMsg e.name) ++ cr.1, cr.2)
  else
    (ExitStatus.ok, [Event.tooLargeMsg], w)

/-- C1: for every input directory, backup root and non-negative budget B,
check_backup_possible is true iff the input's size is at most B minus the
size of the newest entry of the root (minus 0 when the root is empty); the
check is embedded as a pure function of the values read, the source
performing only reads (du and one directory listing), so no file-system
mutation occurs. -/
theorem check_backup_possible_characterization (i B : Nat) (root : Root) :
    check_backup_possible i root B = true ↔
      ((root = [] ∧ (i : Int) ≤ (B : Int)) ∨
        ∃ w, newest_in_directory root = some w ∧
          (i : Int) ≤ (B : Int) - (w.size : Int)) := by
  unfold check_backup_possible
  cases hw : newest_in_directory root with
  | none =>
    have hnil : root = [] := newest_in_directory_eq_none.mp hw
    subst hnil
    simp
  | some w =>
    have hne : root ≠ [] := by
      intro h
      subst h
      simp [newest_in_directory] at hw
    simp only [decide_eq_true_eq, hne, false_and, false_or]
    constructor
    · intro h
      exact ⟨w, rfl, h⟩
    · rintro ⟨w', hw', h⟩
      have hww : w = w' := Option.some_inj.mp hw'
      subst hww
      exact h

/-- C2: when admission holds, the eviction loop terminates — one iteration
per entry bounds it, so any fuel covering the number of entries yields the
same result — and on termination either the surviving root together with
the input fits the budget, or the root has no entries left. -/
theorem purge_old_backups_fits_or_empty (i B : Nat) (root : Root)
    (hchk : check_backup_possible i root B = true) :
    (∀ fuel, root.length ≤ fuel →
        purgeLoopFuel i B fuel root = purgeLoop i B root) ∧
      (get_size_kilobytes (purgeLoop i B root).1 + i ≤ B ∨
        (purgeLoop i B root).1 = []) :=
  ⟨fun _ h => purgeLoopFuel_of_le h,
    purgeLoopFuel_exit root.length root (Nat.le_refl _)⟩

theorem purge_old_backups_fits_or_empty_witness :
    check_backup_possible 15 [⟨"a", 50, 1⟩, ⟨"b", 30, 2⟩] 50 = true ∧
      ((∀ fuel, ([⟨"a", 50, 1⟩, ⟨"b", 30, 2⟩] : Root).length ≤ fuel →
          purgeLoopFuel 15 50 fuel [⟨"a", 50, 1⟩, ⟨"b", 30, 2⟩] =
            purgeLoop 15 50 [⟨"a", 50, 1⟩, ⟨"b", 30, 2⟩]) ∧
        (get_size_kilobytes (purgeLoop 15 50 [⟨"a", 50, 1⟩, ⟨"b", 30, 2⟩]).1 +
              15 ≤ 50 ∨
          (purgeLoop 15 50 [⟨"a", 50, 1⟩, ⟨"b", 30, 2⟩]).1 = [])) :=
  ⟨by decide, purge_old_backups_fits_or_empty 15 50 _ (by decide)⟩

/-- C3: on a root of at least two pre-existing entries, when admission
holds, the entry that was newest before the purge started is still present
in the surviving root after the purge. -/
theorem purge_preserves_newest_entry (i B : Nat) (root : Root) (w : Entry)
    (hlen : 2 ≤ root.length)
    (hw : newest_in_directory root = some w)
    (hchk : check_backup_possible i root B = true) :
    w ∈ (purgeLoop i B root).1 :=
  lastMax_mem
    (purgeLoopFuel_preserves_lastMax root.length root (Nat.le_refl _)
      (lastMax_of_newest hw) (check_backup_possible_newest hchk hw))

theorem purge_preserves_newest_entry_witness :
    (2 ≤ ([⟨"a", 50, 1⟩, ⟨"b", 30, 2⟩] : Root).length ∧
        newest_in_directory [⟨"a", 50, 1⟩, ⟨"b", 30, 2⟩] =
          some ⟨"b", 30, 2⟩ ∧
        check_backup_possible 15 [⟨"a", 50, 1⟩, ⟨"b", 30, 2⟩] 50 = true) ∧
      (⟨"b", 30, 2⟩ : Entry) ∈ (purgeLoop 15 50 [⟨"a", 50, 1⟩, ⟨"b", 30, 2⟩]).1 :=
  ⟨⟨by decide, by decide, by decide⟩,
    purge_preserves_newest_entry 15 50 _ _ (by decide) (by decide) (by decide)⟩

/-- C4 as stated is false: two entries sharing a timestamp can both be
evicted, so the deleted sequence is not strictly increasing in timestamps
(here both deleted entries carry timestamp 5). -/
theorem purge_strictly_increasing_counterexample :
    ¬ List.Pairwise (fun a b => a.ctime < b.ctime)
      (purgeLoop 1 0 [⟨"a", 10, 5⟩, ⟨"b", 10, 5⟩]).2 := by decide

/-- C4 (amended): on a root of distinct entries, the deleted sequence is
non-decreasing in timestamps — each deletion removes an entry of minimal
timestamp among those remaining (every deleted entry is no newer than each
later-deleted and each surviving entry) — and the newest entry is never
deleted while any strictly older entry remains: if it is deleted at all,
it is the last deletion and the root ends empty. -/
theorem purge_oldest_first_order (i B : Nat) (root : Root)
    (hnd : root.Nodup) :
    List.Pairwise (fun a b => a.ctime ≤ b.ctime) (purgeLoop i B root).2 ∧
      (∀ d ∈ (purgeLoop i B root).2, ∀ r ∈ (purgeLoop i B root).1,
        d.ctime ≤ r.ctime) ∧
      ∀ w, newest_in_directory root = some w → w ∈ (purgeLoop i B root).2 →
        (purgeLoop i B root).2.getLast? = some w ∧
          (purgeLoop i B root).1 = [] := by
  refine ⟨(purgeLoopFuel_order root.length root).1,
    (purgeLoopFuel_order root.length root).2, ?_⟩
  intro w hw hwdel
  exact purgeLoopFuel_newest_deleted_last root.length root hnd
    (lastMax_of_newest hw) hwdel

theorem purge_oldest_first_order_witness :
    ([⟨"a", 10, 5⟩, ⟨"b", 10, 5⟩] : Root).Nodup ∧
      (List.Pairwise (fun a b => a.ctime ≤ b.ctime)
          (purgeLoop 1 0 [⟨"a", 10, 5⟩, ⟨"b", 10, 5⟩]).2 ∧
        (∀ d ∈ (purgeLoop 1 0 [⟨"a", 10, 5⟩, ⟨"b", 10, 5⟩]).2,
          ∀ r ∈ (purgeLoop 1 0 [⟨"a", 10, 5⟩, ⟨"b", 10, 5⟩]).1,
            d.ctime ≤ r.ctime) ∧
        ∀ w, newest_in_directory [⟨"a", 10, 5⟩, ⟨"b", 10, 5⟩] = some w →
          w ∈ (purgeLoop 1 0 [⟨"a", 10, 5⟩, ⟨"b", 10, 5⟩]).2 →
          (purgeLoop 1 0 [⟨"a", 10, 5⟩, ⟨"b", 10, 5⟩]).2.getLast? = some w ∧
            (purgeLoop 1 0 [⟨"a", 10, 5⟩, ⟨"b", 10, 5⟩]).1 = []) :=
  ⟨by decide, purge_oldest_first_order 1 0 _ (by decide)⟩

/-- The concrete invocation python3 backup.py missing_input existing_root 100
with an input directory path that does not exist: exactly 3 positional
arguments, existing backup root, numeric cap, no collision. -/
def invalidInputWorld : World :=
  ⟨4, false, true, true, 100, 0, [], false, "2024-01-01 00h 00m 00s", 0⟩

/-- C5 names a code bug: the source assigns
has_required_args = (len(sys.argv) != 4) — inverted — and prints the usage
message only when that is true AND the arguments are valid, so an
invocation whose arguments fail validation is NOT answered with the usage
message and exit status 1.  On the concrete invocation above (correct
argument count, nonexistent input directory) the script skips the usage
branch, proceeds, and dies with an uncaught exception inside
check_backup_possible, printing no usage message. -/
theorem usage_validation_bug_at_invalid_input :
    runScript invalidInputWorld =
        (ExitStatus.crash, [], invalidInputWorld) ∧
      Event.usageMsg ∉ (runScript invalidInputWorld).2.1 := by decide

/-- C6: with valid arguments and an already existing generated output path
(e.g. a second run within the same second on an unchanged root), the script
prints the collision message and exits with status 2; the world is returned
unchanged — no eviction, no copy. -/
theorem collision_second_run_exit_two (w : World) (hargc : w.argc = 4)
    (hi : w.inputExists = true) (hr : w.rootExists = true)
    (hc : w.capNumeric = true) (ho : w.outputExists = true) :
    runScript w = (ExitStatus.collision, [Event.collisionMsg w.outName], w) := by
  unfold runScript
  rw [hargc]
  simp [ho]

theorem collision_second_run_exit_two_witness :
    ((⟨4, true, true, true, 100, 10, [], true, "t", 0⟩ : World).argc = 4 ∧
        (⟨4, true, true, true, 100, 10, [], true, "t", 0⟩ : World).outputExists = true) ∧
      runScript ⟨4, true, true, true, 100, 10, [], true, "t", 0⟩ =
        (ExitStatus.collision, [Event.collisionMsg "t"],
          ⟨4, true, true, true, 100, 10, [], true, "t", 0⟩) :=
  ⟨⟨rfl, rfl⟩,
    collision_second_run_exit_two _ rfl rfl rfl rfl rfl⟩

/-- C7: with valid arguments, no collision, and a failing admission check,
the script prints the informational too-large message and exits with status
0; the world is returned unchanged — purge and copy are never reached. -/
theorem admission_failure_informational_exit_zero (w : World)
    (hargc : w.argc = 4)
    (hi : w.inputExists = true) (hr : w.rootExists = true)
    (hc : w.capNumeric = true) (ho : w.outputExists = false)
    (hchk : check_backup_possible w.inputSize w.root w.cap = false) :
    runScript w = (ExitStatus.ok, [Event.tooLargeMsg], w) := by
  unfold runScript
  rw [hargc]
  simp [hi, hr, hc, ho, hchk]

theorem admission_failure_informational_exit_zero_witness :
    ((⟨4, true, true, true, 100, 20, [⟨"p", 90, 1⟩], false, "t", 2⟩ : World).argc = 4 ∧
        check_backup_possible 20 [⟨"p", 90, 1⟩] 100 = false) ∧
      runScript ⟨4, true, true, true, 100, 20, [⟨"p", 90, 1⟩], false, "t", 2⟩ =
        (ExitStatus.ok, [Event.tooLargeMsg],
          ⟨4, true, true, true, 100, 20, [⟨"p", 90, 1⟩], false, "t", 2⟩) :=
  ⟨⟨rfl, by decide⟩,
    admission_failure_informational_exit_zero _ rfl rfl rfl rfl rfl (by decide)⟩

/-- End-to-end scenario 3 of the spec: three 30 KB entries with distinct
timestamps, a 15 KB input, a 100 KB budget. -/
def scenarioWorld : World :=
  ⟨4, true, true, true, 100, 15,
    [⟨"2024-01-01 00h 00m 00s", 30, 1⟩, ⟨"2024-01-02 00h 00m 00s", 30, 2⟩,
      ⟨"2024-01-03 00h 00m 00s", 30, 3⟩],
    false, "2024-01-04 00h 00m 00s", 4⟩

/-- C8: on scenario 3, admission succeeds, exactly the oldest entry is
evicted (one purge message), the copy succeeds, and the final root holds
exactly the middle entry, the former newest entry, and the new backup. -/
theorem end_to_end_scenario_three :
    check_backup_possible 15 scenarioWorld.root 100 = true ∧
      runScript scenarioWorld =
        (ExitStatus.ok,
          [Event.purgedMsg "2024-01-01 00h 00m 00s",
            Event.backupCreatedMsg "2024-01-04 00h 00m 00s"],
          { scenarioWorld with
              root := [⟨"2024-01-02 00h 00m 00s", 30, 2⟩,
                ⟨"2024-01-03 00h 00m 00s", 30, 3⟩,
                ⟨"2024-01-04 00h 00m 00s", 15, 4⟩],
              outputExists := true }) := by decide

/-- C9: purge_old_backups_as_required measures the input directory's size
exactly once, before the first loop test (backup.py line 90): its result
depends only on the input size observable at time 0, so any later change to
the input directory's size cannot affect the outcome; and after a deletion
the loop recurses on the erased listing, re-reading the root's size and its
oldest entry from the updated state while reusing the cached input size. -/
theorem purge_measures_input_size_once (f g : Nat → Nat) (B : Nat)
    (root : Root) (h : f 0 = g 0) :
    purge_old_backups_as_required f B root =
        purge_old_backups_as_required g B root ∧
      ∀ o, oldest_in_directory root = some o →
        B < get_size_kilobytes root + f 0 →
        purge_old_backups_as_required f B root =
          ((purgeLoop (f 0) B (root.erase o)).1,
            o :: (purgeLoop (f 0) B (root.erase o)).2) := by
  constructor
  · unfold purge_old_backups_as_required
    rw [h]
  · intro o ho hcond
    have hmem := oldest_in_directory_mem ho
    have hel := length_erase_of_mem' hmem
    unfold purge_old_backups_as_required purgeLoop
    rw [← hel]
    simp only [purgeLoopFuel, hcond, if_true, ho]

theorem purge_measures_input_size_once_witness :
    ((fun n => 5 + n) 0 = (fun _ => 5) 0) ∧
      (purge_old_backups_as_required (fun n => 5 + n) 0 [⟨"a", 1, 1⟩] =
          purge_old_backups_as_required (fun _ => 5) 0 [⟨"a", 1, 1⟩] ∧
        ∀ o, oldest_in_directory [⟨"a", 1, 1⟩] = some o →
          0 < get_size_kilobytes [⟨"a", 1, 1⟩] + (fun n => 5 + n) 0 →
          purge_old_backups_as_required (fun n => 5 + n) 0 [⟨"a", 1, 1⟩] =
            ((purgeLoop ((fun n => 5 + n) 0) 0
                (([⟨"a", 1, 1⟩] : Root).erase o)).1,
              o :: (purgeLoop ((fun n => 5 + n) 0) 0
                (([⟨"a", 1, 1⟩] : Root).erase o)).2)) :=
  ⟨rfl, purge_measures_input_size_once (fun n => 5 + n) (fun _ => 5) 0
    [⟨"a", 1, 1⟩] rfl⟩

/-- C10: in a run whose initial existence check on the generated output
path passed, the target-exists branch inside create_new_backup (the terse
marker F) is unreachable — admission checking and eviction never create the
output path — and whenever the run reaches create_new_backup it performs
the copy and reports the new backup's path. -/
theorem copy_conflict_branch_unreachable (w : World)
    (h : w.outputExists = false) :
    Event.copyConflictMarker ∉ (runScript w).2.1 ∧
      (w.argc = 4 → w.inputExists = true → w.rootExists = true →
        w.capNumeric = true →
        check_backup_possible w.inputSize w.root w.cap = true →
        Event.backupCreatedMsg w.outName ∈ (runScript w).2.1) := by
  constructor
  · unfold runScript create_new_backup
    split_ifs with h1 h2 h3 h4 h5 h6 h7 <;>
      simp_all [List.mem_append, List.mem_map]
  · intro hargc hi hr hc hchk
    unfold runScript create_new_backup
    rw [hargc]
    simp [hi, hr, hc, h, hchk]

theorem copy_conflict_branch_unreachable_witness :
    ((⟨4, true, true, true, 100, 10, [⟨"p", 30, 1⟩], false, "t", 2⟩ : World).outputExists
          = false) ∧
      (Event.copyConflictMarker ∉
          (runScript ⟨4, true, true, true, 100, 10, [⟨"p", 30, 1⟩], false, "t", 2⟩).2.1 ∧
        ((⟨4, true, true, true, 100, 10, [⟨"p", 30, 1⟩], false, "t", 2⟩ : World).argc = 4 →
          (⟨4, true, true, true, 100, 10, [⟨"p", 30, 1⟩], false, "t", 2⟩ : World).inputExists = true →
          (⟨4, true, true, true, 100, 10, [⟨"p", 30, 1⟩], false, "t", 2⟩ : World).rootExists = true →
          (⟨4, true, true, true, 100, 10, [⟨"p", 30, 1⟩], false, "t", 2⟩ : World).capNumeric = true →
          check_backup_possible 10 [⟨"p", 30, 1⟩] 100 = true →
          Event.backupCreatedMsg "t" ∈
            (runScript ⟨4, true, true, true, 100, 10, [⟨"p", 30, 1⟩], false, "t", 2⟩).2.1)) :=
  ⟨rfl, copy_conflict_branch_unreachable _ rfl⟩
